import Mathlib

/-!
A shallow embedding of the `topq` crate (`src/lib.rs`): a fixed-capacity
"Timeout Priority Queue" that keeps up to `N` entries in strictly
descending priority order, each entry carrying a validity window against a
possibly wrapping clock.

Modelling choices:
* The occupied region of the backing array (`queue[0 .. used]`) is a Lean
  `List`; `used` is its length.  Slots beyond `used` are uninitialized in
  the Rust code and are never read, so they have no counterpart here.
* The `Timer` trait is represented by a linearly ordered `Time` type plus
  an explicit `wadd : Time → Time → Time` function standing for
  `Timer::wrapping_add`; `Timer::now` becomes an explicit `now` argument
  taken by each operation that samples the clock.
* Priorities `P` and times `Time` are linearly ordered, matching the
  `P: Ord` / `T::Time: Ord` bounds in the Rust code.
* `slice::binary_search_by` is embedded as the midpoint bisection loop of
  the Rust standard library (`left`/`right` bounds, probe at
  `left + size / 2`), written with an explicit fuel argument that starts
  at the slice length; the fuel strictly exceeds the interval width
  throughout, so the out-of-fuel branch is unreachable.
-/

/-- `TopqItem` from the source: payload, priority, and the two clock
samples delimiting the validity window. -/
structure TopqItem (D P Time : Type) where
  item : D
  prio : P
  start_time : Time
  expiry_time : Time
deriving DecidableEq

/-- `TopqItem::valid_at_time`: the two-branch, rollover-aware validity
test, with the strict comparison `start_time < expiry_time` selecting the
non-rollover branch. -/
def TopqItem.valid_at_time {D P Time : Type} [LinearOrder Time]
    (it : TopqItem D P Time) (t : Time) : Bool :=
  if it.start_time < it.expiry_time then
    decide (it.start_time ≤ t) && decide (t ≤ it.expiry_time)
  else
    decide (t ≥ it.start_time) || decide (t ≤ it.expiry_time)

/-- The bisection loop of Rust's `slice::binary_search_by`: maintain
`left ≤ right`, probe the comparator at `mid = left + (right - left) / 2`,
and narrow the interval according to the returned `Ordering`.  `fuel`
bounds the number of iterations; callers pass the slice length, which
always suffices.  An out-of-range probe (impossible while
`right ≤ xs.length`) answers `.error left` like an exhausted interval. -/
def bsAux {α : Type} (f : α → Ordering) (xs : List α) :
    Nat → Nat → Nat → Except Nat Nat
  | 0, left, _ => .error left
  | fuel + 1, left, right =>
    if left < right then
      let mid := left + (right - left) / 2
      match xs.get? mid with
      | none => .error left
      | some x =>
        match f x with
        | .lt => bsAux f xs fuel (mid + 1) right
        | .gt => bsAux f xs fuel left mid
        | .eq => .ok mid
    else
      .error left

/-- `slice::binary_search_by` over the occupied region: `.ok i` means the
comparator answered `Equal` at index `i`; `.error i` is the insertion
point. -/
def binary_search_by {α : Type} (xs : List α) (f : α → Ordering) : Except Nat Nat :=
  bsAux f xs xs.length 0 xs.length

/-- `Topq::insert_item`: locate the slot by binary search on priority
(comparator `new_item.prio.cmp(&ti.prio)` over the descending region),
then replace in place on an exact match, do nothing when the insertion
point falls off the capacity `N`, append when it falls at the end of the
occupied region, and otherwise shift the tail one slot (first dropping
the last entry when the region is full). -/
def insert_item {D P Time : Type} [LinearOrder P]
    (N : Nat) (q : List (TopqItem D P Time)) (new_item : TopqItem D P Time) :
    List (TopqItem D P Time) :=
  match binary_search_by q (fun ti => compare new_item.prio ti.prio) with
  | .ok idx =>
    -- Exact priority match: drop the old item, write the new in place.
    q.set idx new_item
  | .error idx =>
    if idx = N then
      -- Nothing to do, off the end
      q
    else if idx = q.length then
      -- Off the used end, but not off the total end
      q ++ [new_item]
    else
      -- Drop the last item when full, scootch the array, write the new item.
      let q2 := if q.length = N then q.dropLast else q
      q2.take idx ++ new_item :: q2.drop idx

/-- `Topq::insert`: sample `now`, compute the expiry by wrapping addition,
and hand the assembled `TopqItem` to `insert_item`.  `wadd` stands for
`T::wrapping_add` and `now` for the sampled `self.timer.now()`. -/
def Topq.insert {D P Time : Type} [LinearOrder P]
    (N : Nat) (q : List (TopqItem D P Time)) (wadd : Time → Time → Time)
    (item : D) (prio : P) (now valid_for : Time) : List (TopqItem D P Time) :=
  insert_item N q ⟨item, prio, now, wadd now valid_for⟩

/-- The compaction walk of `Topq::prune`: traverse the occupied region
front to back, copying each entry valid at `now` into the next good slot
(modelled by accumulating the retained entries in reverse) and dropping
the rest; the final occupied region is the accumulated run. -/
def prune_go {D P Time : Type} [LinearOrder Time] (now : Time) :
    List (TopqItem D P Time) → List (TopqItem D P Time) → List (TopqItem D P Time)
  | acc, [] => acc.reverse
  | acc, it :: rest =>
    if it.valid_at_time now then prune_go now (it :: acc) rest
    else prune_go now acc rest

/-- `Topq::prune` at a sampled tick `now`. -/
def Topq.prune {D P Time : Type} [LinearOrder Time]
    (q : List (TopqItem D P Time)) (now : Time) : List (TopqItem D P Time) :=
  prune_go now [] q

/-- `Topq::get_item`: scan the occupied region in stored order and return
the first entry valid at the sampled tick `now` (`slice::iter().find`). -/
def Topq.get_item {D P Time : Type} [LinearOrder Time]
    (q : List (TopqItem D P Time)) (now : Time) : Option (TopqItem D P Time) :=
  q.find? (fun it => it.valid_at_time now)

/-- `Topq::get_data`: the payload of `get_item`'s result. -/
def Topq.get_data {D P Time : Type} [LinearOrder Time]
    (q : List (TopqItem D P Time)) (now : Time) : Option D :=
  (Topq.get_item q now).map (fun i => i.item)

/-- One externally driven operation on a queue: `insert` carries the data,
priority, the tick the timer returns for `now`, and the validity duration;
`prune` carries the tick the timer returns for `now`. -/
inductive TopqOp (D P Time : Type) where
  | insert (item : D) (prio : P) (now valid_for : Time)
  | prune (now : Time)

/-- Run one operation against the occupied region. -/
def applyOp {D P Time : Type} [LinearOrder P] [LinearOrder Time]
    (wadd : Time → Time → Time) (N : Nat)
    (q : List (TopqItem D P Time)) : TopqOp D P Time → List (TopqItem D P Time)
  | .insert item prio now valid_for => Topq.insert N q wadd item prio now valid_for
  | .prune now => Topq.prune q now

/-- The priority-order invariant of the occupied region: strictly
descending priorities front to back. -/
def StrictDescend {D P Time : Type} [LinearOrder P]
    (q : List (TopqItem D P Time)) : Prop :=
  q.Pairwise (fun a b => b.prio < a.prio)

/-- The payload-and-priority image of an entry, forgetting its timing:
used to state that insertion is oblivious to the stored timestamps. -/
def TopqItem.strip {D P Time : Type} (it : TopqItem D P Time) : D × P :=
  (it.item, it.prio)

/-! ### Helper lemmas -/

theorem prune_go_eq {D P Time : Type} [LinearOrder Time] (now : Time) :
    ∀ (l acc : List (TopqItem D P Time)),
      prune_go now acc l = acc.reverse ++ l.filter (fun it => it.valid_at_time now)
  | [], acc => by simp [prune_go]
  | it :: rest, acc => by
    by_cases h : it.valid_at_time now
    · simp [prune_go, h, prune_go_eq now rest (it :: acc)]
    · simp [prune_go, h, prune_go_eq now rest acc]

theorem prune_eq_filter {D P Time : Type} [LinearOrder Time]
    (q : List (TopqItem D P Time)) (now : Time) :
    Topq.prune q now = q.filter (fun it => it.valid_at_time now) := by
  simp [Topq.prune, prune_go_eq]

theorem find?_some_decomp {α : Type} (p : α → Bool) :
    ∀ (l : List α) (a : α), l.find? p = some a →
      p a = true ∧ ∃ l1 l2, l = l1 ++ a :: l2 ∧ ∀ x ∈ l1, p x = false
  | [], a => by simp
  | b :: l, a => by
    intro h
    rw [List.find?_cons] at h
    by_cases hb : p b
    · simp [hb] at h
      subst h
      exact ⟨hb, [], l, rfl, by simp⟩
    · simp [hb] at h
      obtain ⟨hpa, l1, l2, hdec, hinv⟩ := find?_some_decomp p l a h
      refine ⟨hpa, b :: l1, l2, by simp [hdec], ?_⟩
      intro x hx
      rcases List.mem_cons.mp hx with hx | hx
      · simpa [hx] using hb
      · exact hinv x hx

/-! ### C2, C3, C4, C5, C9 -/

/-- C2: the validity predicate holds exactly as the two-branch rule
states — in the non-rollover case (`start_time < expiry_time`) an entry is
valid at `t` iff `start_time ≤ t ≤ expiry_time` with both endpoints
included, and in the rollover case (`start_time ≥ expiry_time`) it is
valid at `t` iff `t ≥ start_time` or `t ≤ expiry_time`. -/
theorem valid_at_time_two_branch {D P Time : Type} [LinearOrder Time]
    (it : TopqItem D P Time) (t : Time) :
    it.valid_at_time t = true ↔
      ((it.start_time < it.expiry_time →
          (it.start_time ≤ t ∧ t ≤ it.expiry_time)) ∧
       (it.start_time ≥ it.expiry_time →
          (t ≥ it.start_time ∨ t ≤ it.expiry_time))) := by
  unfold TopqItem.valid_at_time
  by_cases h : it.start_time < it.expiry_time
  · simp [h, h.not_le]
  · simp [h, le_of_not_lt h]

/-- C2 witness: the two-branch rule evaluated on the concrete entry
`(start, expiry) = (1, 5)` at tick `3`. -/
theorem valid_at_time_two_branch_witness :
    (⟨0, 0, 1, 5⟩ : TopqItem Nat Nat Nat).valid_at_time 3 = true ↔
      ((1 < 5 → (1 ≤ 3 ∧ 3 ≤ 5)) ∧ (1 ≥ 5 → (3 ≥ 1 ∨ 3 ≤ 5))) :=
  valid_at_time_two_branch (⟨0, 0, 1, 5⟩ : TopqItem Nat Nat Nat) 3

/-- C3: `prune` keeps exactly the occupied entries valid at the sampled
tick, in their original relative order (it equals a filter of the occupied
region), and the new `used` is the number of retained entries. -/
theorem prune_removes_exactly_invalid {D P Time : Type} [LinearOrder Time]
    (q : List (TopqItem D P Time)) (now : Time) :
    Topq.prune q now = q.filter (fun it => it.valid_at_time now) ∧
    (Topq.prune q now).length = q.countP (fun it => it.valid_at_time now) := by
  refine ⟨prune_eq_filter q now, ?_⟩
  rw [prune_eq_filter q now, ← List.countP_eq_length_filter]

/-- C4 counterexample: for the entry with `start_time = expiry_time = 5`
the claim asserts validity only at the wrap boundary and the existence of
a tick where the entry is invalid; in fact the entry is valid at the
unrelated tick `42` and at every other tick. -/
theorem zero_window_counterexample :
    (⟨0, 0, 5, 5⟩ : TopqItem Nat Nat Nat).valid_at_time 42 = true ∧
    ¬ ∃ t : Nat, (⟨0, 0, 5, 5⟩ : TopqItem Nat Nat Nat).valid_at_time t = false := by
  constructor
  · decide
  · rintro ⟨t, ht⟩
    simp [TopqItem.valid_at_time] at ht
    omega

/-- C4 (amended): an entry with `start_time = expiry_time` is classified
under the rollover branch, and is then valid at every tick (the disjunction
`t ≥ start_time ∨ t ≤ expiry_time` is total), not only at the boundary. -/
theorem zero_window_rollover_universal {D P Time : Type} [LinearOrder Time]
    (it : TopqItem D P Time) (h : it.start_time = it.expiry_time) :
    ¬ it.start_time < it.expiry_time ∧ ∀ t : Time, it.valid_at_time t = true := by
  constructor
  · rw [h]
    exact lt_irrefl _
  · intro t
    unfold TopqItem.valid_at_time
    rw [if_neg (by rw [h]; exact lt_irrefl _)]
    rcases le_total it.start_time t with hle | hle
    · simp [hle]
    · simp [h ▸ hle]

/-- C4 witness: the amended statement applied to the concrete entry with
`start_time = expiry_time = 5`. -/
theorem zero_window_rollover_universal_witness :
    ¬ (5 : Nat) < 5 ∧ ∀ t : Nat, (⟨0, 0, 5, 5⟩ : TopqItem Nat Nat Nat).valid_at_time t = true :=
  zero_window_rollover_universal (⟨0, 0, 5, 5⟩ : TopqItem Nat Nat Nat) rfl

/-- C5: `get_item` returns the first occupied entry (in stored order)
valid at the sampled tick — any returned entry is valid and is preceded
only by invalid entries — and returns none exactly when no occupied entry
is valid; `get_data` is its payload.  The Rust methods take `&self`, so
non-mutation holds by construction in this functional model. -/
theorem get_item_first_valid {D P Time : Type} [LinearOrder Time]
    (q : List (TopqItem D P Time)) (now : Time) :
    (∀ it, Topq.get_item q now = some it →
      it.valid_at_time now = true ∧
      ∃ l1 l2, q = l1 ++ it :: l2 ∧ ∀ x ∈ l1, x.valid_at_time now = false) ∧
    (Topq.get_item q now = none ↔ ∀ x ∈ q, x.valid_at_time now = false) ∧
    Topq.get_data q now = (Topq.get_item q now).map (fun it => it.item) := by
  refine ⟨?_, ?_, rfl⟩
  · intro it h
    exact find?_some_decomp _ q it h
  · rw [Topq.get_item, List.find?_eq_none]
    constructor
    · intro h x hx
      simpa using h x hx
    · intro h x hx
      simpa using h x hx

/-- C5 witness: the characterization applied to a concrete queue whose
top entry is expired at tick `16`, so the scan returns the second entry. -/
theorem get_item_first_valid_witness :
    (∀ it, Topq.get_item [⟨13, 6, 0, 15⟩, (⟨12, 5, 0, 20⟩ : TopqItem Nat Nat Nat)] 16 = some it →
      it.valid_at_time 16 = true ∧
      ∃ l1 l2, [⟨13, 6, 0, 15⟩, (⟨12, 5, 0, 20⟩ : TopqItem Nat Nat Nat)] = l1 ++ it :: l2 ∧
        ∀ x ∈ l1, x.valid_at_time 16 = false) ∧
    (Topq.get_item [⟨13, 6, 0, 15⟩, (⟨12, 5, 0, 20⟩ : TopqItem Nat Nat Nat)] 16 = none ↔
      ∀ x ∈ [⟨13, 6, 0, 15⟩, (⟨12, 5, 0, 20⟩ : TopqItem Nat Nat Nat)], x.valid_at_time 16 = false) ∧
    Topq.get_data [⟨13, 6, 0, 15⟩, (⟨12, 5, 0, 20⟩ : TopqItem Nat Nat Nat)] 16 =
      (Topq.get_item [⟨13, 6, 0, 15⟩, (⟨12, 5, 0, 20⟩ : TopqItem Nat Nat Nat)] 16).map
        (fun it => it.item) :=
  get_item_first_valid [⟨13, 6, 0, 15⟩, (⟨12, 5, 0, 20⟩ : TopqItem Nat Nat Nat)] 16

/-- `u32::wrapping_add`, the wrapping addition of the 32-bit `FakeTimer`
used by the crate's tests, over `Nat` representatives below `2^32`. -/
def u32_wrapping_add (a b : Nat) : Nat := (a + b) % 4294967296

/-- C9: inserting at `now = 0xFFFFFFF0` with a 32-tick window under the
32-bit wrapping clock stores `expiry_time = 0x00000010`, and the stored
entry is valid on `0xFFFFFFF0..=0xFFFFFFFF` and on `0x0..=0x10`, and
invalid at `0x11`. -/
theorem rollover_window_u32 :
    Topq.insert 4 ([] : List (TopqItem Nat Nat Nat)) u32_wrapping_add 10 3 4294967280 32 =
      [⟨10, 3, 4294967280, 16⟩] ∧
    (∀ t : Nat, 4294967280 ≤ t → t ≤ 4294967295 →
      (⟨10, 3, 4294967280, 16⟩ : TopqItem Nat Nat Nat).valid_at_time t = true) ∧
    (∀ t : Nat, t ≤ 16 →
      (⟨10, 3, 4294967280, 16⟩ : TopqItem Nat Nat Nat).valid_at_time t = true) ∧
    (⟨10, 3, 4294967280, 16⟩ : TopqItem Nat Nat Nat).valid_at_time 17 = false := by
  refine ⟨by decide, ?_, ?_, by decide⟩
  · intro t h1 _
    simp [TopqItem.valid_at_time]
    omega
  · intro t h1
    simp [TopqItem.valid_at_time]
    omega

/-- C9 witness: the window bounds applied at the concrete ticks
`0xFFFFFFF8` (before the wrap) and `0x8` (after the wrap). -/
theorem rollover_window_u32_witness :
    (⟨10, 3, 4294967280, 16⟩ : TopqItem Nat Nat Nat).valid_at_time 4294967288 = true ∧
    (⟨10, 3, 4294967280, 16⟩ : TopqItem Nat Nat Nat).valid_at_time 8 = true :=
  ⟨rollover_window_u32.2.1 4294967288 (by decide) (by decide),
   rollover_window_u32.2.2.1 8 (by decide)⟩

/-! ### Characterization of the embedded `binary_search_by` -/

theorem bsAux_char {α : Type} (f : α → Ordering) (xs : List α)
    (hmono : ∀ (i j : Nat) (hi : i < xs.length) (hj : j < xs.length), i ≤ j →
      (f (xs.get ⟨i, hi⟩) = .gt → f (xs.get ⟨j, hj⟩) = .gt) ∧
      (f (xs.get ⟨j, hj⟩) = .lt → f (xs.get ⟨i, hi⟩) = .lt)) :
    ∀ (fuel left right : Nat), right ≤ xs.length → left ≤ right →
      right - left ≤ fuel →
      (∀ (j : Nat) (hj : j < xs.length), j < left → f (xs.get ⟨j, hj⟩) = .lt) →
      (∀ (j : Nat) (hj : j < xs.length), right ≤ j → f (xs.get ⟨j, hj⟩) = .gt) →
      (match bsAux f xs fuel left right with
       | .ok i => ∃ hi : i < xs.length, f (xs.get ⟨i, hi⟩) = .eq
       | .error i => i ≤ xs.length ∧
           (∀ (j : Nat) (hj : j < xs.length), j < i → f (xs.get ⟨j, hj⟩) = .lt) ∧
           (∀ (j : Nat) (hj : j < xs.length), i ≤ j → f (xs.get ⟨j, hj⟩) = .gt))
  | 0, left, right => by
    intro hrlen hlr hfuel hleft hright
    have h : left = right := by omega
    simp only [bsAux]
    exact ⟨by omega, hleft, fun j hj hij => hright j hj (by omega)⟩
  | fuel + 1, left, right => by
    intro hrlen hlr hfuel hleft hright
    by_cases hltr : left < right
    · have hmidr : left + (right - left) / 2 < right := by omega
      have hmidlen : left + (right - left) / 2 < xs.length := lt_of_lt_of_le hmidr hrlen
      simp only [bsAux, if_pos hltr, List.get?_eq_get hmidlen]
      cases hc : f (xs.get ⟨left + (right - left) / 2, hmidlen⟩) with
      | eq => exact ⟨hmidlen, hc⟩
      | lt =>
        refine bsAux_char f xs hmono fuel (left + (right - left) / 2 + 1) right hrlen
          (by omega) (by omega) ?_ hright
        intro j hj hjmid
        exact (hmono j (left + (right - left) / 2) hj hmidlen (by omega)).2 hc
      | gt =>
        refine bsAux_char f xs hmono fuel left (left + (right - left) / 2)
          (le_of_lt hmidlen) (by omega) (by omega) hleft ?_
        intro j hj hmidj
        exact (hmono (left + (right - left) / 2) j hmidlen hj hmidj).1 hc
    · have h : left = right := by omega
      simp only [bsAux, if_neg hltr]
      exact ⟨by omega, hleft, fun j hj hij => hright j hj (by omega)⟩

/-- On a strictly-descending occupied region, the binary search with
comparator `new.prio.cmp(&ti.prio)` either finds the index holding exactly
the probed priority, or reports the insertion point: every earlier entry
has a strictly greater priority and every entry from the insertion point
on has a strictly smaller one. -/
theorem binary_search_by_char {D P Time : Type} [LinearOrder P]
    (p : P) (q : List (TopqItem D P Time)) (hs : StrictDescend q) :
    match binary_search_by q (fun ti => compare p ti.prio) with
    | .ok i => ∃ hi : i < q.length, (q.get ⟨i, hi⟩).prio = p
    | .error i => i ≤ q.length ∧
        (∀ (j : Nat) (hj : j < q.length), j < i → p < (q.get ⟨j, hj⟩).prio) ∧
        (∀ (j : Nat) (hj : j < q.length), i ≤ j → (q.get ⟨j, hj⟩).prio < p) := by
  have hpw := List.pairwise_iff_get.mp hs
  have hmono : ∀ (i j : Nat) (hi : i < q.length) (hj : j < q.length), i ≤ j →
      ((fun ti => compare p ti.prio) (q.get ⟨i, hi⟩) = .gt →
        (fun ti => compare p ti.prio) (q.get ⟨j, hj⟩) = .gt) ∧
      ((fun ti => compare p ti.prio) (q.get ⟨j, hj⟩) = .lt →
        (fun ti => compare p ti.prio) (q.get ⟨i, hi⟩) = .lt) := by
    intro i j hi hj hij
    rcases eq_or_lt_of_le hij with heq | hlt
    · subst heq
      exact ⟨fun h => h, fun h => h⟩
    · have hprio : (q.get ⟨j, hj⟩).prio < (q.get ⟨i, hi⟩).prio := hpw ⟨i, hi⟩ ⟨j, hj⟩ hlt
      constructor
      · intro h
        simp only [compare_gt_iff_gt] at h ⊢
        exact lt_trans hprio h
      · intro h
        simp only [compare_lt_iff_lt] at h ⊢
        exact lt_trans h hprio
  have hchar := bsAux_char (fun ti => compare p ti.prio) q hmono q.length 0 q.length
    (le_refl _) (Nat.zero_le _) (by omega)
    (fun j hj hij => absurd hij (Nat.not_lt_zero j))
    (fun j hj hij => absurd hj (not_lt.mpr hij))
  rw [binary_search_by]
  cases hres : bsAux (fun ti => compare p ti.prio) q q.length 0 q.length with
  | ok i =>
    rw [hres] at hchar
    obtain ⟨hi, heq⟩ := hchar
    exact ⟨hi, (compare_eq_iff_eq.mp heq).symm⟩
  | error i =>
    rw [hres] at hchar
    obtain ⟨hile, hbef, haft⟩ := hchar
    refine ⟨hile, ?_, ?_⟩
    · intro j hj hji
      exact compare_lt_iff_lt.mp (hbef j hj hji)
    · intro j hj hij
      exact compare_gt_iff_gt.mp (haft j hj hij)

/-! ### Sortedness preservation of `insert_item` -/

theorem pairwise_insert_at {α : Type} {R : α → α → Prop} {l : List α} {a : α} {i : Nat}
    (hl : l.Pairwise R)
    (hbef : ∀ (j : Nat) (hj : j < l.length), j < i → R (l.get ⟨j, hj⟩) a)
    (haft : ∀ (j : Nat) (hj : j < l.length), i ≤ j → R a (l.get ⟨j, hj⟩)) :
    (l.take i ++ a :: l.drop i).Pairwise R := by
  have hpw := List.pairwise_iff_get.mp hl
  rw [List.pairwise_append]
  refine ⟨hl.sublist (List.take_sublist i l), ?_, ?_⟩
  · rw [List.pairwise_cons]
    refine ⟨?_, hl.sublist (List.drop_sublist i l)⟩
    intro b hb
    obtain ⟨⟨k, hk⟩, hbk⟩ := List.mem_iff_get.mp hb
    have hklen : i + k < l.length := by
      have := hk
      simp only [List.length_drop] at this
      omega
    have hbeq : b = l.get ⟨i + k, hklen⟩ := by
      rw [← hbk]
      simp only [List.get_eq_getElem, List.getElem_drop]
    rw [hbeq]
    exact haft (i + k) hklen (Nat.le_add_right i k)
  · intro x hx b hb
    obtain ⟨⟨k, hk⟩, hxk⟩ := List.mem_iff_get.mp hx
    have hki : k < i := by
      have := hk
      simp only [List.length_take] at this
      omega
    have hklen : k < l.length := by
      have := hk
      simp only [List.length_take] at this
      omega
    have hxeq : x = l.get ⟨k, hklen⟩ := by
      rw [← hxk]
      simp only [List.get_eq_getElem, List.getElem_take]
    rcases List.mem_cons.mp hb with hba | hbd
    · rw [hxeq, hba]
      exact hbef k hklen hki
    · obtain ⟨⟨m, hm⟩, hbm⟩ := List.mem_iff_get.mp hbd
      have hmlen : i + m < l.length := by
        have := hm
        simp only [List.length_drop] at this
        omega
      have hbeq : b = l.get ⟨i + m, hmlen⟩ := by
        rw [← hbm]
        simp only [List.get_eq_getElem, List.getElem_drop]
      rw [hxeq, hbeq]
      exact hpw ⟨k, hklen⟩ ⟨i + m, hmlen⟩ (by simp; omega)

/-- Entries of `dropLast` agree with the original list at each index. -/
theorem get_dropLast_eq {α : Type} (l : List α) (j : Nat) (hj : j < l.dropLast.length)
    (hj2 : j < l.length) : l.dropLast.get ⟨j, hj⟩ = l.get ⟨j, hj2⟩ := by
  simp [List.getElem_dropLast]

/-- `insert_item` preserves the sortedness invariant and the capacity
bound of the occupied region. -/
theorem insert_item_invariant {D P Time : Type} [LinearOrder P] (N : Nat)
    (q : List (TopqItem D P Time)) (new_item : TopqItem D P Time)
    (hs : StrictDescend q) (hlen : q.length ≤ N) :
    StrictDescend (insert_item N q new_item) ∧
      (insert_item N q new_item).length ≤ N := by
  have hpw := List.pairwise_iff_get.mp hs
  have hchar := binary_search_by_char new_item.prio q hs
  rw [insert_item]
  cases hres : binary_search_by q (fun ti => compare new_item.prio ti.prio) with
  | ok i =>
    rw [hres] at hchar
    obtain ⟨hi, hpi⟩ := hchar
    dsimp only
    constructor
    · rw [StrictDescend, List.pairwise_iff_get]
      intro ⟨j, hj⟩ ⟨k, hk⟩ hjk
      simp only [List.length_set] at hj hk
      simp only [List.get_eq_getElem, List.getElem_set]
      simp only [Fin.mk_lt_mk] at hjk
      have hpi2 : q[i].prio = new_item.prio := by simpa using hpi
      have hpwE : ∀ (a b : Nat) (ha : a < q.length) (hb : b < q.length),
          a < b → q[b].prio < q[a].prio := by
        intro a b ha hb hab
        have := hpw ⟨a, ha⟩ ⟨b, hb⟩ (by simpa using hab)
        simpa using this
      by_cases hji : i = j
      · rw [if_pos hji, if_neg (by omega)]
        subst hji
        rw [← hpi2]
        exact hpwE i k hi hk hjk
      · rw [if_neg hji]
        by_cases hki : i = k
        · rw [if_pos hki]
          subst hki
          rw [← hpi2]
          exact hpwE j i hj hi hjk
        · rw [if_neg hki]
          exact hpwE j k hj hk hjk
    · simpa using hlen
  | error i =>
    rw [hres] at hchar
    obtain ⟨hile, hbef, haft⟩ := hchar
    dsimp only
    by_cases hiN : i = N
    · rw [if_pos hiN]
      exact ⟨hs, hlen⟩
    · rw [if_neg hiN]
      by_cases hiu : i = q.length
      · rw [if_pos hiu]
        constructor
        · rw [StrictDescend, List.pairwise_append]
          refine ⟨hs, List.pairwise_singleton _ _, ?_⟩
          intro x hx b hb
          rw [List.mem_singleton] at hb
          subst hb
          obtain ⟨⟨k, hk⟩, hxk⟩ := List.mem_iff_get.mp hx
          rw [← hxk]
          exact hbef k hk (by omega)
        · have : q.length < N := by omega
          simpa using this
      · rw [if_neg hiu]
        have hilt : i < q.length := by omega
        by_cases hfull : q.length = N
        · rw [if_pos hfull]
          have hdl : q.dropLast.length = q.length - 1 := List.length_dropLast q
          constructor
          · refine pairwise_insert_at (hs.sublist (List.dropLast_sublist q)) ?_ ?_
            · intro j hj hji
              have hj2 : j < q.length := by omega
              rw [get_dropLast_eq q j hj hj2]
              exact hbef j hj2 hji
            · intro j hj hij
              have hj2 : j < q.length := by omega
              rw [get_dropLast_eq q j hj hj2]
              exact haft j hj2 hij
          · simp only [List.length_append, List.length_take, List.length_cons,
              List.length_drop, hdl]
            omega
        · rw [if_neg hfull]
          constructor
          · refine pairwise_insert_at hs ?_ ?_
            · intro j hj hji
              exact hbef j hj hji
            · intro j hj hij
              exact haft j hj hij
          · simp only [List.length_append, List.length_take, List.length_cons,
              List.length_drop]
            omega

/-! ### C1 -/

/-- C1: starting from the empty queue, after any sequence of insert and
prune operations the occupied region is strictly descending in priority,
no two occupied entries share a priority, and `used ≤ N` (with `used` the
length of the occupied region, which is never negative). -/
theorem queue_invariant_all_ops {D P Time : Type} [LinearOrder P] [LinearOrder Time]
    (wadd : Time → Time → Time) (N : Nat) (ops : List (TopqOp D P Time)) :
    (ops.foldl (applyOp wadd N) []).length ≤ N ∧
    StrictDescend (ops.foldl (applyOp wadd N) []) ∧
    (ops.foldl (applyOp wadd N) []).Pairwise (fun a b => a.prio ≠ b.prio) := by
  suffices h : ∀ (q : List (TopqItem D P Time)), q.length ≤ N → StrictDescend q →
      (ops.foldl (applyOp wadd N) q).length ≤ N ∧
      StrictDescend (ops.foldl (applyOp wadd N) q) by
    obtain ⟨h1, h2⟩ := h [] (by simp) List.Pairwise.nil
    exact ⟨h1, h2, h2.imp (fun hlt => ne_of_gt hlt)⟩
  induction ops with
  | nil =>
    intro q h1 h2
    exact ⟨h1, h2⟩
  | cons op rest ih =>
    intro q h1 h2
    simp only [List.foldl_cons]
    cases op with
    | insert item prio now valid_for =>
      obtain ⟨hsd, hln⟩ := insert_item_invariant N q
        ⟨item, prio, now, wadd now valid_for⟩ h2 h1
      exact ih _ hln hsd
    | prune now =>
      refine ih _ ?_ ?_
      · simp only [applyOp, prune_eq_filter]
        exact le_trans (List.length_filter_le _ q) h1
      · simp only [applyOp, prune_eq_filter]
        exact h2.sublist (List.filter_sublist q)

/-- C1 witness: the invariant after a concrete sequence of four inserts
and a prune under the 32-bit wrapping clock. -/
theorem queue_invariant_all_ops_witness :
    ((([.insert 10 3 0 30, .insert 13 6 0 15, .insert 12 5 0 20, .prune 16] :
        List (TopqOp Nat Nat Nat)).foldl (applyOp u32_wrapping_add 4) []).length ≤ 4 ∧
    StrictDescend (([.insert 10 3 0 30, .insert 13 6 0 15, .insert 12 5 0 20, .prune 16] :
        List (TopqOp Nat Nat Nat)).foldl (applyOp u32_wrapping_add 4) []) ∧
    (([.insert 10 3 0 30, .insert 13 6 0 15, .insert 12 5 0 20, .prune 16] :
        List (TopqOp Nat Nat Nat)).foldl (applyOp u32_wrapping_add 4) []).Pairwise
      (fun a b => a.prio ≠ b.prio)) :=
  queue_invariant_all_ops u32_wrapping_add 4
    [.insert 10 3 0 30, .insert 13 6 0 15, .insert 12 5 0 20, .prune 16]

/-! ### C6, C7, C8 -/

/-- C6: inserting at a priority already stored replaces exactly that
entry in place — the result is `q.set i new_item` at the matching index,
so `used` is unchanged and every other slot keeps its position and
contents, with no shifting. -/
theorem insert_existing_prio_replaces {D P Time : Type} [LinearOrder P] (N : Nat)
    (q : List (TopqItem D P Time)) (new_item : TopqItem D P Time)
    (hs : StrictDescend q) (i : Fin q.length)
    (hp : (q.get i).prio = new_item.prio) :
    insert_item N q new_item = q.set i new_item ∧
    (insert_item N q new_item).length = q.length := by
  have hpw := List.pairwise_iff_get.mp hs
  have hchar := binary_search_by_char new_item.prio q hs
  rw [insert_item]
  cases hres : binary_search_by q (fun ti => compare new_item.prio ti.prio) with
  | ok j =>
    rw [hres] at hchar
    obtain ⟨hj, hpj⟩ := hchar
    dsimp only
    have hij : j = i.val := by
      by_contra hne
      rcases Nat.lt_or_ge j i.val with hlt | hge
      · have := hpw ⟨j, hj⟩ i hlt
        rw [hp, hpj] at this
        exact lt_irrefl _ this
      · have hlt : i.val < j := by omega
        have := hpw i ⟨j, hj⟩ hlt
        rw [hp, hpj] at this
        exact lt_irrefl _ this
    subst hij
    exact ⟨rfl, by simp⟩
  | error j =>
    rw [hres] at hchar
    obtain ⟨hjle, hbef, haft⟩ := hchar
    exfalso
    rcases Nat.lt_or_ge i.val j with hlt | hge
    · have := hbef i.val i.isLt hlt
      rw [hp] at this
      exact lt_irrefl _ this
    · have := haft i.val i.isLt hge
      rw [hp] at this
      exact lt_irrefl _ this

/-- C6 witness: replacing the priority-3 entry of a concrete two-entry
queue leaves the other entry and `used` untouched. -/
theorem insert_existing_prio_replaces_witness :
    insert_item 4 [⟨1, 5, 0, 10⟩, ⟨2, 3, 0, 10⟩] (⟨7, 3, 2, 9⟩ : TopqItem Nat Nat Nat) =
      ([⟨1, 5, 0, 10⟩, ⟨2, 3, 0, 10⟩] : List (TopqItem Nat Nat Nat)).set 1 ⟨7, 3, 2, 9⟩ ∧
    (insert_item 4 [⟨1, 5, 0, 10⟩, ⟨2, 3, 0, 10⟩] (⟨7, 3, 2, 9⟩ : TopqItem Nat Nat Nat)).length =
      ([⟨1, 5, 0, 10⟩, ⟨2, 3, 0, 10⟩] : List (TopqItem Nat Nat Nat)).length :=
  insert_existing_prio_replaces 4 [⟨1, 5, 0, 10⟩, ⟨2, 3, 0, 10⟩] ⟨7, 3, 2, 9⟩
    (by constructor
        · intro b hb
          rw [List.mem_singleton] at hb
          subst hb
          decide
        · exact List.pairwise_singleton _ _)
    ⟨1, by decide⟩ rfl

/-- C7: inserting an absent priority strictly above the stored minimum
into a full queue drops exactly the tail entry, places the new entry at
its ordered position among the surviving prefix (entries after it shifted
one slot), and keeps `used = N`. -/
theorem insert_full_evicts_tail {D P Time : Type} [LinearOrder P] (N : Nat)
    (q : List (TopqItem D P Time)) (new_item : TopqItem D P Time)
    (hs : StrictDescend q) (hfull : q.length = N) (hne : q ≠ [])
    (hnomatch : ∀ x ∈ q, x.prio ≠ new_item.prio)
    (hmin : (q.getLast hne).prio < new_item.prio) :
    ∃ idx, idx ≤ q.dropLast.length ∧
      insert_item N q new_item = q.dropLast.take idx ++ new_item :: q.dropLast.drop idx ∧
      (∀ x ∈ q.dropLast.take idx, new_item.prio < x.prio) ∧
      (∀ x ∈ q.dropLast.drop idx, x.prio < new_item.prio) ∧
      (insert_item N q new_item).length = N := by
  have hchar := binary_search_by_char new_item.prio q hs
  have hqpos : 0 < q.length := List.length_pos.mpr hne
  have hlast : q.getLast hne = q.get ⟨q.length - 1, by omega⟩ := by
    rw [List.getLast_eq_getElem]
    simp
  rw [insert_item]
  cases hres : binary_search_by q (fun ti => compare new_item.prio ti.prio) with
  | ok j =>
    rw [hres] at hchar
    obtain ⟨hj, hpj⟩ := hchar
    exact absurd hpj (hnomatch _ (q.get_mem j hj))
  | error j =>
    rw [hres] at hchar
    obtain ⟨hjle, hbef, haft⟩ := hchar
    dsimp only
    have hjlt : j < q.length := by
      by_contra hge
      have hj : j = q.length := by omega
      have := hbef (q.length - 1) (by omega) (by omega)
      rw [← hlast] at this
      exact absurd hmin (lt_asymm this)
    rw [if_neg (by omega), if_neg (by omega), if_pos hfull]
    have hdl : q.dropLast.length = q.length - 1 := List.length_dropLast q
    refine ⟨j, ?_, rfl, ?_, ?_, ?_⟩
    · -- j ≤ dropLast length: j < q.length and j ≠ q.length - 1 is not needed,
      -- only j ≤ q.length - 1, which follows from j < q.length.
      omega
    · intro x hx
      obtain ⟨⟨k, hk⟩, hxk⟩ := List.mem_iff_get.mp hx
      have hki : k < j := by
        have := hk
        simp only [List.length_take] at this
        omega
      have hklen : k < q.length := by omega
      have hxeq : x = q.get ⟨k, hklen⟩ := by
        rw [← hxk]
        simp only [List.get_eq_getElem, List.getElem_take, List.getElem_dropLast]
      rw [hxeq]
      exact hbef k hklen hki
    · intro x hx
      obtain ⟨⟨m, hm⟩, hxm⟩ := List.mem_iff_get.mp hx
      have hmlen : j + m < q.length := by
        have := hm
        simp only [List.length_drop, hdl] at this
        omega
      have hxeq : x = q.get ⟨j + m, hmlen⟩ := by
        rw [← hxm]
        simp only [List.get_eq_getElem, List.getElem_drop, List.getElem_dropLast]
      rw [hxeq]
      exact haft (j + m) hmlen (Nat.le_add_right j m)
    · simp only [List.length_append, List.length_take, List.length_cons,
        List.length_drop, hdl]
      omega

/-- C7 witness: inserting absent priority `4` into the full queue with
priorities `[5, 3]` (capacity `2`) drops the tail (priority 3) and places
the new entry after priority 5. -/
theorem insert_full_evicts_tail_witness :
    ∃ idx, idx ≤ ([⟨1, 5, 0, 10⟩, ⟨2, 3, 0, 10⟩] :
        List (TopqItem Nat Nat Nat)).dropLast.length ∧
      insert_item 2 [⟨1, 5, 0, 10⟩, ⟨2, 3, 0, 10⟩] (⟨9, 4, 1, 8⟩ : TopqItem Nat Nat Nat) =
        ([⟨1, 5, 0, 10⟩, ⟨2, 3, 0, 10⟩] :
          List (TopqItem Nat Nat Nat)).dropLast.take idx ++
          ⟨9, 4, 1, 8⟩ :: ([⟨1, 5, 0, 10⟩, ⟨2, 3, 0, 10⟩] :
            List (TopqItem Nat Nat Nat)).dropLast.drop idx ∧
      (∀ x ∈ ([⟨1, 5, 0, 10⟩, ⟨2, 3, 0, 10⟩] :
          List (TopqItem Nat Nat Nat)).dropLast.take idx,
        (⟨9, 4, 1, 8⟩ : TopqItem Nat Nat Nat).prio < x.prio) ∧
      (∀ x ∈ ([⟨1, 5, 0, 10⟩, ⟨2, 3, 0, 10⟩] :
          List (TopqItem Nat Nat Nat)).dropLast.drop idx,
        x.prio < (⟨9, 4, 1, 8⟩ : TopqItem Nat Nat Nat).prio) ∧
      (insert_item 2 [⟨1, 5, 0, 10⟩, ⟨2, 3, 0, 10⟩]
        (⟨9, 4, 1, 8⟩ : TopqItem Nat Nat Nat)).length = 2 :=
  insert_full_evicts_tail 2 [⟨1, 5, 0, 10⟩, ⟨2, 3, 0, 10⟩] ⟨9, 4, 1, 8⟩
    (by constructor
        · intro b hb
          rw [List.mem_singleton] at hb
          subst hb
          decide
        · exact List.pairwise_singleton _ _)
    rfl (by decide)
    (by intro x hx
        rcases List.mem_cons.mp hx with h | h
        · subst h; decide
        · rw [List.mem_singleton] at h
          subst h; decide)
    (by decide)

/-- C8: inserting a priority strictly lower than everything stored into a
full queue is a no-op: the occupied region is returned unchanged (the
candidate is discarded); the Rust method returns `()` in every case, so
no error is surfaced to the caller. -/
theorem insert_full_lower_noop {D P Time : Type} [LinearOrder P] (N : Nat)
    (q : List (TopqItem D P Time)) (new_item : TopqItem D P Time)
    (hs : StrictDescend q) (hfull : q.length = N)
    (hlow : ∀ x ∈ q, new_item.prio < x.prio) :
    insert_item N q new_item = q := by
  have hchar := binary_search_by_char new_item.prio q hs
  rw [insert_item]
  cases hres : binary_search_by q (fun ti => compare new_item.prio ti.prio) with
  | ok j =>
    rw [hres] at hchar
    obtain ⟨hj, hpj⟩ := hchar
    have := hlow _ (q.get_mem j hj)
    rw [hpj] at this
    exact absurd this (lt_irrefl _)
  | error j =>
    rw [hres] at hchar
    obtain ⟨hjle, hbef, haft⟩ := hchar
    dsimp only
    have hj : j = q.length := by
      by_contra hne
      have hjlt : j < q.length := by omega
      have h1 := haft j hjlt (le_refl j)
      have h2 := hlow _ (q.get_mem j hjlt)
      exact absurd (lt_trans h1 h2) (lt_irrefl _)
    rw [if_pos (by omega)]

/-- C8 witness: inserting priority `1` into the full queue with
priorities `[5, 3]` (capacity `2`) returns the queue unchanged. -/
theorem insert_full_lower_noop_witness :
    insert_item 2 [⟨1, 5, 0, 10⟩, ⟨2, 3, 0, 10⟩] (⟨9, 1, 1, 8⟩ : TopqItem Nat Nat Nat) =
      [⟨1, 5, 0, 10⟩, ⟨2, 3, 0, 10⟩] :=
  insert_full_lower_noop 2 [⟨1, 5, 0, 10⟩, ⟨2, 3, 0, 10⟩] ⟨9, 1, 1, 8⟩
    (by constructor
        · intro b hb
          rw [List.mem_singleton] at hb
          subst hb
          decide
        · exact List.pairwise_singleton _ _)
    rfl
    (by intro x hx
        rcases List.mem_cons.mp hx with h | h
        · subst h; decide
        · rw [List.mem_singleton] at h
          subst h; decide)

/-! ### C10 -/

theorem bsAux_map_congr {α β γ : Type} (g : γ → Ordering) (s1 : α → γ) (s2 : β → γ)
    (xs : List α) (ys : List β) (h : xs.map s1 = ys.map s2) :
    ∀ (fuel left right : Nat),
      bsAux (fun a => g (s1 a)) xs fuel left right =
        bsAux (fun b => g (s2 b)) ys fuel left right
  | 0, _, _ => rfl
  | fuel + 1, left, right => by
    by_cases hlr : left < right
    · simp only [bsAux, if_pos hlr]
      have hget : (xs.get? (left + (right - left) / 2)).map s1 =
          (ys.get? (left + (right - left) / 2)).map s2 := by
        rw [← List.get?_map, ← List.get?_map, h]
      have hxylen : xs.length = ys.length := by
        have := congrArg List.length h
        simpa using this
      cases hx : xs.get? (left + (right - left) / 2) with
      | none =>
        cases hy : ys.get? (left + (right - left) / 2) with
        | none => rfl
        | some y =>
          exfalso
          have h1 : xs.length ≤ left + (right - left) / 2 := List.get?_eq_none.mp hx
          obtain ⟨h2, -⟩ := List.get?_eq_some.mp hy
          omega
      | some x =>
        cases hy : ys.get? (left + (right - left) / 2) with
        | none =>
          exfalso
          have h1 : ys.length ≤ left + (right - left) / 2 := List.get?_eq_none.mp hy
          obtain ⟨h2, -⟩ := List.get?_eq_some.mp hx
          omega
        | some y =>
          rw [hx, hy] at hget
          simp only [Option.map_some'] at hget
          rw [Option.some_inj] at hget
          have hg : g (s1 x) = g (s2 y) := by rw [hget]
          dsimp only
          rw [hg]
          cases g (s2 y) with
          | lt => exact bsAux_map_congr g s1 s2 xs ys h fuel _ _
          | gt => exact bsAux_map_congr g s1 s2 xs ys h fuel _ _
          | eq => rfl
    · simp only [bsAux, if_neg hlr]

/-- C10: insertion decides placement, replacement, eviction, and
rejection by priority comparison alone and never consults the validity
windows: two queues agreeing on payloads, priorities, and `used` but with
arbitrarily different stored `start_time`/`expiry_time` values give the
same structural outcome (identical payload/priority sequence, hence
identical positions and `used`) for inserts of entries agreeing on
payload and priority. -/
theorem insert_structural_outcome_time_oblivious {D P Time : Type} [LinearOrder P]
    (N : Nat) (q1 q2 : List (TopqItem D P Time)) (n1 n2 : TopqItem D P Time)
    (hq : q1.map TopqItem.strip = q2.map TopqItem.strip)
    (hn : n1.strip = n2.strip) :
    (insert_item N q1 n1).map TopqItem.strip =
      (insert_item N q2 n2).map TopqItem.strip := by
  have hprio : n1.prio = n2.prio := congrArg Prod.snd hn
  have hlen : q1.length = q2.length := by
    have := congrArg List.length hq
    simpa using this
  have hbs : binary_search_by q1 (fun ti => compare n1.prio ti.prio) =
      binary_search_by q2 (fun ti => compare n2.prio ti.prio) := by
    rw [binary_search_by, binary_search_by, hlen, hprio]
    exact bsAux_map_congr (fun s => compare n2.prio s.2)
      TopqItem.strip TopqItem.strip q1 q2 hq q2.length 0 q2.length
  rw [insert_item, insert_item, ← hbs]
  cases hres : binary_search_by q1 (fun ti => compare n1.prio ti.prio) with
  | ok i =>
    dsimp only
    rw [List.map_set, List.map_set, hq, hn]
  | error i =>
    dsimp only
    by_cases hiN : i = N
    · rw [if_pos hiN, if_pos hiN]
      exact hq
    · rw [if_neg hiN, if_neg hiN]
      by_cases hiu : i = q1.length
      · rw [if_pos hiu, if_pos (hlen ▸ hiu)]
        rw [List.map_append, List.map_append, hq]
        simp [TopqItem.strip] at hn ⊢
        exact hn
      · have hiu2 : ¬ i = q2.length := by
          rw [← hlen]
          exact hiu
        rw [if_neg hiu, if_neg hiu2]
        have hqb : (if q1.length = N then q1.dropLast else q1).map TopqItem.strip =
            (if q2.length = N then q2.dropLast else q2).map TopqItem.strip := by
          by_cases hfN : q1.length = N
          · have hfN2 : q2.length = N := by
              rw [← hlen]
              exact hfN
            rw [if_pos hfN, if_pos hfN2, List.map_dropLast, List.map_dropLast, hq]
          · have hfN2 : ¬ q2.length = N := by
              rw [← hlen]
              exact hfN
            rw [if_neg hfN, if_neg hfN2]
            exact hq
        rw [List.map_append, List.map_append, List.map_cons, List.map_cons,
          List.map_take, List.map_take, List.map_drop, List.map_drop, hqb, hn]

/-- C10 witness: a queue of live entries and a queue of entries expired
at every sampled instant, agreeing on payloads and priorities, produce
the same structural outcome when the same datum is inserted. -/
theorem insert_structural_outcome_time_oblivious_witness :
    (insert_item 2 [⟨1, 5, 0, 10⟩, ⟨2, 3, 0, 10⟩]
        (⟨9, 4, 1, 8⟩ : TopqItem Nat Nat Nat)).map TopqItem.strip =
      (insert_item 2 [⟨1, 5, 99, 99⟩, ⟨2, 3, 7, 1⟩]
        (⟨9, 4, 1000, 2⟩ : TopqItem Nat Nat Nat)).map TopqItem.strip :=
  insert_structural_outcome_time_oblivious 2
    [⟨1, 5, 0, 10⟩, ⟨2, 3, 0, 10⟩] [⟨1, 5, 99, 99⟩, ⟨2, 3, 7, 1⟩]
    ⟨9, 4, 1, 8⟩ ⟨9, 4, 1000, 2⟩ rfl rfl
